import Mathlib

/-!
Verification of the module bundler (`src/bundle.py`).

The program inlines Rust modules into a binary entry file in three phases:
1. scan the entry file for lines matching the regex `pub mod .+ {` to find
   already-embedded modules;
2. compute the transitive closure of the seed modules over the reference
   relation given by lines matching the regex `use crate::(\w*)::`,
   with a seen-set and a pop-from-the-end worklist;
3. append, for every required module not already embedded, an inline block
   whose body is the module file with comment-marker lines dropped and each
   remaining line whitespace-collapsed.

Files are modelled as association lists from paths to raw text; text is a
`List Char`; a file's iteration yields lines that keep their trailing
newline, as in Python (`splitLines`).  Paths are plain strings; the model
treats all user-supplied names as relative names joined under the fixed
folders, which is pathlib's behaviour for the ordinary names the tool is
used with.
-/

namespace Bundle

abbrev Path := List Char

/-- The file system: an association list from paths to raw file text. -/
abbrev FS := List (Path × List Char)

def lookupFS : FS → Path → Option (List Char)
| [], _ => none
| (q, txt) :: rest, p => if q = p then some txt else lookupFS rest p

/-- `os.path.isfile`: the path is present in the modelled file system. -/
def isFile (fs : FS) (p : Path) : Bool := (lookupFS fs p).isSome

/-- Python file iteration: split text into lines, each keeping its trailing
newline (the final line may lack one); empty text yields no lines. -/
def splitLines : List Char → List (List Char)
| [] => []
| c :: cs =>
  if c = '\n' then ['\n'] :: splitLines cs
  else
    match splitLines cs with
    | [] => [[c]]
    | l :: ls => (c :: l) :: ls

/-- Python's `\s` on the ASCII range: space, tab, newline, carriage return,
form feed, vertical tab. -/
def isPySpace (c : Char) : Bool :=
  c == ' ' || c == '\t' || c == '\n' || c == '\x0d' || c == '\x0c' || c == '\x0b'

/-- Python's `\w` on the ASCII range: letters, digits, underscore. -/
def isWordChar (c : Char) : Bool := c.isAlpha || c.isDigit || c == '_'

/-- `re.sub('\s+', ' ', s)`: each maximal run of whitespace becomes one
space.  The flag records whether we are inside a whitespace run whose
single replacement space has already been emitted. -/
def collapseAux : Bool → List Char → List Char
| _, [] => []
| inRun, c :: cs =>
  if isPySpace c then
    if inRun then collapseAux true cs else ' ' :: collapseAux true cs
  else c :: collapseAux false cs

def collapseWs (l : List Char) : List Char := collapseAux false l

/-- Python `s.rstrip('\n')`: drop every trailing newline character. -/
def rstripNL (l : List Char) : List Char :=
  (l.reverse.dropWhile (fun c => c = '\n')).reverse

/-- The text written for one surviving module line
(`re.sub('\s+', ' ', line.rstrip('\n'))`, bundle.py line 106). -/
def emitLineText (l : List Char) : List Char := collapseWs (rstripNL l)

/-- Index of the last occurrence of `pat` as a contiguous sublist. -/
def lastOcc (pat : List Char) : List Char → Option Nat
| [] => if pat.isPrefixOf [] then some 0 else none
| c :: cs =>
  match lastOcc pat cs with
  | some k => some (k + 1)
  | none => if pat.isPrefixOf (c :: cs) then some 0 else none

/-- Python's substring test `pat in s`. -/
def hasSub (pat cs : List Char) : Bool := (lastOcc pat cs).isSome

/-- The part of a line before its (terminal) newline; `.` in a Python regex
does not match past it. -/
def beforeNL (l : List Char) : List Char := l.takeWhile (fun c => !(c == '\n'))

def pubModPat : List Char := "pub mod ".toList

def useCratePat : List Char := "use crate::".toList

def bracePat : List Char := " \x7b".toList

def commentPat : List Char := "//".toList

def colonPat : List Char := "::".toList

def rsExt : List Char := ".rs".toList

/-- `re.match(r"pub mod .+ {", line)` followed by the slice
`line[8 : match.end() - 2]` (bundle.py lines 58-61).  The greedy `.+`
(which cannot cross a newline and must be nonempty) makes the match end at
the last occurrence of `" {"` that starts at index at least 9 of the line;
the extracted name is everything between `"pub mod "` and that occurrence. -/
def pubModName (line : List Char) : Option (List Char) :=
  if pubModPat.isPrefixOf line then
    match lastOcc bracePat ((beforeNL (line.drop 8)).drop 1) with
    | some j => some ((line.drop 8).take (j + 1))
    | none => none
  else none

/-- `re.match(r"use crate::(\w*)::", line)` followed by the slice
`line[11 : match.end() - 2]` (bundle.py lines 79-82): the maximal run of
word characters after `"use crate::"`, provided it is followed by `"::"`. -/
def useCrateName (line : List Char) : Option (List Char) :=
  if useCratePat.isPrefixOf line then
    let w := (line.drop 11).takeWhile isWordChar
    if colonPat.isPrefixOf ((line.drop 11).drop w.length) then some w else none
  else none

/-- `SRC_FOLDER / Path(name + ".rs")`. -/
def srcPath (name : List Char) : Path := "src/".toList ++ name ++ rsExt

/-- Module paths referenced by the lines of one file (phase 2 inner loop). -/
def refsOfLines (ls : List (List Char)) : List Path :=
  ls.filterMap (fun l => (useCrateName l).map srcPath)

/-- Module paths recorded by the phase-1 scan of the entry file's lines. -/
def existedOfLines (ls : List (List Char)) : List Path :=
  ls.filterMap (fun l => (pubModName l).map srcPath)

/-- The reference edges out of one module file (empty for a missing file;
the traversal itself errors on a missing file before using this). -/
def refsOf (fs : FS) (p : Path) : List Path :=
  match lookupFS fs p with
  | none => []
  | some txt => refsOfLines (splitLines txt)

/-- One popped file's reference processing (bundle.py lines 78-87): for each
referenced path in order, if unseen, add it to the seen-set and push it on
the worklist.  The worklist is stored with the Python list's end first,
since `q.pop()` pops from the end and `q.append` pushes there. -/
def stepRefs : List Path × List Path → List Path → List Path × List Path
| st, [] => st
| (seen, qR), m :: ms =>
  if m ∈ seen then stepRefs (seen, qR) ms else stepRefs (seen ++ [m], m :: qR) ms

inductive TravResult where
| ok (seen scans : List Path)
| ioError (p : Path)
deriving DecidableEq

/-- The phase-2 worklist loop (bundle.py lines 73-87), with fuel standing in
for the unbounded `while`; `scans` records the files opened for scanning, in
order.  Opening a missing file is the unhandled `FileNotFoundError`. -/
def travLoop (fs : FS) : Nat → List Path → List Path → List Path → Option TravResult
| _, seen, [], scans => some (.ok seen scans)
| 0, _, _ :: _, _ => none
| fuel + 1, seen, p :: qR, scans =>
  match lookupFS fs p with
  | none => some (.ioError p)
  | some txt =>
    let st := stepRefs (seen, qR) (refsOfLines (splitLines txt))
    travLoop fs fuel st.1 st.2 (scans ++ [p])

/-- `seen_modules` after the seeding loop (bundle.py lines 66-69): the seeds
with duplicates removed, a set modelled as a duplicate-free list. -/
def initSeen (seeds : List Path) : List Path :=
  seeds.foldl (fun s p => if p ∈ s then s else s ++ [p]) []

/-- `q = module_paths[:]` (bundle.py line 71), in end-first order. -/
def initQ (seeds : List Path) : List Path := seeds.reverse

/-- `path.name`: the component after the last slash. -/
def afterLastSlash : List Char → List Char
| [] => []
| c :: cs => if '/' ∈ c :: cs then afterLastSlash cs else c :: cs

/-- `path.name[:-3]` (bundle.py line 97). -/
def stemOf (p : Path) : List Char :=
  (afterLastSlash p).take ((afterLastSlash p).length - 3)

/-- The block body (bundle.py lines 102-106): lines containing `//` are
dropped whole; each surviving line is written collapsed, with no separator
between consecutive written lines. -/
def bodyOf : List (List Char) → List Char
| [] => []
| l :: ls => (if hasSub commentPat l then [] else emitLineText l) ++ bodyOf ls

/-- The full text appended for one module (bundle.py lines 99-108). -/
def blockText (p : Path) (txt : List Char) : List Char :=
  "#[rustfmt::skip]\npub mod ".toList ++ stemOf p ++ bracePat
    ++ bodyOf (splitLines txt) ++ "\x7d\n".toList

/-- The phase-3 loop over the seen-set (bundle.py lines 93-108): skip paths
already embedded, otherwise append that module's block; opening a missing
module file is an unhandled error. -/
def emitLoop (fs : FS) (existed : List Path) : List Path → Except Path (List Char × List Path)
| [] => .ok ([], [])
| p :: ps =>
  if p ∈ existed then emitLoop fs existed ps
  else
    match lookupFS fs p with
    | none => .error p
    | some txt =>
      match emitLoop fs existed ps with
      | .error e => .error e
      | .ok (app, em) => .ok (blockText p txt ++ app, p :: em)

inductive ExpandResult where
| outOfFuel
| ioError (p : Path)
| ok (appended : List Char) (emitted : List Path)

/-- `expand_modules` (bundle.py lines 52-110): phase 1 scans the entry file,
phase 2 runs the closure traversal, phase 3 appends a single newline and
then the blocks of the required modules that are not already embedded.
`appended` is the text appended to the entry file, `emitted` the paths whose
blocks were written. -/
def expandModules (fs : FS) (binPath : Path) (modulePaths : List Path) (fuel : Nat) :
    ExpandResult :=
  match lookupFS fs binPath with
  | none => .ioError binPath
  | some binTxt =>
    match travLoop fs fuel (initSeen modulePaths) (initQ modulePaths) [] with
    | none => .outOfFuel
    | some (.ioError p) => .ioError p
    | some (.ok seen _) =>
      match emitLoop fs (existedOfLines (splitLines binTxt)) seen with
      | .error p => .ioError p
      | .ok (app, em) => .ok ('\n' :: app) em

/-- Extension completion (bundle.py lines 21-22 and 29-30): append `.rs`
unless the name already ends with it. -/
def normalizeExt (name : List Char) : List Char :=
  if name.length < 3 ∨ ¬ (name.drop (name.length - 3) = rsExt) then name ++ rsExt
  else name

def binPathOf (binArg : List Char) : Path := "src/bin/".toList ++ normalizeExt binArg

def seedPathsOf (args : List (List Char)) : List Path :=
  args.map (fun n => "src/".toList ++ normalizeExt n)

/-- The validation-failure message (bundle.py lines 41 and 46). -/
def errMsg (p : Path) : List Char :=
  "存在しないファイルが指定されています: ".toList ++ p

/-- The seed validation loop (bundle.py lines 44-47): the first missing seed
path, if any. -/
def firstMissing (fs : FS) : List Path → Option Path
| [] => none
| p :: ps => if isFile fs p then firstMissing fs ps else some p

inductive MainResult where
| validationError (msg : List Char)
| ran (r : ExpandResult)

/-- `main` (bundle.py lines 9-50): resolve the paths, validate the entry
file and then each seed in order, and only if all exist call
`expand_modules`.  A validation failure prints its message and returns
without touching any file. -/
def mainRun (fs : FS) (binArg : List Char) (args : List (List Char)) (fuel : Nat) :
    MainResult :=
  if isFile fs (binPathOf binArg) then
    match firstMissing fs (seedPathsOf args) with
    | some p => .validationError (errMsg p)
    | none => .ran (expandModules fs (binPathOf binArg) (seedPathsOf args) fuel)
  else .validationError (errMsg (binPathOf binArg))

/-- Reachability over the reference relation: the seeds, closed under the
edges extracted from each module file's text. -/
inductive ReachableFrom (fs : FS) (seeds : List Path) : Path → Prop
| seed {p} : p ∈ seeds → ReachableFrom fs seeds p
| step {p q} : ReachableFrom fs seeds p → q ∈ refsOf fs p → ReachableFrom fs seeds q

/-- Every module path referenced anywhere in the file system: a bound on
what the traversal can ever add to the seen-set. -/
def allRefs (fs : FS) : List Path :=
  (fs.map (fun e => refsOfLines (splitLines e.2))).flatten

/-- How many potential additions are not yet in the seen-set; the
traversal's termination measure is the worklist length plus this. -/
def missNum (fs : FS) (seen : List Path) : Nat :=
  (((allRefs fs).dedup).filter (fun u => decide (u ∉ seen))).length

/-- Loop invariant of the closure traversal: the seeds are seen, the
worklist is inside the seen-set, everything seen is reachable, and every
seen path no longer on the worklist has all its references seen. -/
def TravInv (fs : FS) (seeds : List Path) (seen qR : List Path) : Prop :=
  (∀ p ∈ seeds, p ∈ seen) ∧ (∀ p ∈ qR, p ∈ seen)
    ∧ (∀ p ∈ seen, ReachableFrom fs seeds p)
    ∧ (∀ p ∈ seen, p ∉ qR → ∀ m ∈ refsOf fs p, m ∈ seen)

/-- Invariant tying the scan log to the worklist: with a duplicate-free
worklist no file is ever opened for scanning twice. -/
def ScanInv (seen qR scans : List Path) : Prop :=
  scans.Nodup ∧ qR.Nodup ∧ (∀ x ∈ scans, x ∉ qR)
    ∧ (∀ x ∈ scans, x ∈ seen) ∧ (∀ x ∈ qR, x ∈ seen)

end Bundle

namespace Bundle

/-! ### Substring machinery: `lastOcc` against `List.IsInfix` -/

theorem bracePat_eq : bracePat = [' ', '{'] := rfl

theorem sub_of_lastOcc {pat : List Char} : ∀ {cs : List Char} {k : Nat},
    lastOcc pat cs = some k → pat <:+: cs := by
  intro cs
  induction cs with
  | nil =>
    intro k h
    simp only [lastOcc] at h
    split at h
    · next hp => exact (List.isPrefixOf_iff_prefix.mp hp).isInfix
    · simp at h
  | cons c cs ih =>
    intro k h
    simp only [lastOcc] at h
    cases hlo : lastOcc pat cs with
    | some k' => exact List.infix_cons (ih hlo)
    | none =>
      simp only [hlo] at h
      by_cases hp : pat.isPrefixOf (c :: cs) = true
      · exact (List.isPrefixOf_iff_prefix.mp hp).isInfix
      · rw [if_neg hp] at h
        exact absurd h (by simp)

theorem lastOcc_isSome_of_drop {pat : List Char} : ∀ (cs : List Char) (k : Nat),
    pat.isPrefixOf (cs.drop k) = true → (lastOcc pat cs).isSome = true := by
  intro cs
  induction cs with
  | nil =>
    intro k h
    simp only [List.drop_nil] at h
    simp [lastOcc, h]
  | cons c cs ih =>
    intro k h
    cases k with
    | zero =>
      simp only [List.drop_zero] at h
      simp only [lastOcc]
      cases hlo : lastOcc pat cs with
      | some k' => simp
      | none => simp [h]
    | succ k =>
      have hs := ih k (by simpa using h)
      obtain ⟨k', hk'⟩ := Option.isSome_iff_exists.mp hs
      simp [lastOcc, hk']

theorem lastOcc_isSome_of_sub {pat cs : List Char} (h : pat <:+: cs) :
    (lastOcc pat cs).isSome = true := by
  obtain ⟨s, t, rfl⟩ := h
  apply lastOcc_isSome_of_drop _ s.length
  rw [List.append_assoc, List.drop_left]
  exact List.isPrefixOf_iff_prefix.mpr ⟨t, rfl⟩

theorem lastOcc_none_iff {pat cs : List Char} : lastOcc pat cs = none ↔ ¬ (pat <:+: cs) := by
  constructor
  · intro h hsub
    have hs := lastOcc_isSome_of_sub hsub
    rw [h] at hs
    simp at hs
  · intro h
    cases hlo : lastOcc pat cs with
    | none => rfl
    | some k => exact absurd (sub_of_lastOcc hlo) h

theorem hasSub_iff {pat cs : List Char} : hasSub pat cs = true ↔ pat <:+: cs := by
  unfold hasSub
  constructor
  · intro h
    obtain ⟨k, hk⟩ := Option.isSome_iff_exists.mp h
    exact sub_of_lastOcc hk
  · exact lastOcc_isSome_of_sub

theorem lastOcc_append_right {pat B : List Char} {j : Nat} (h : lastOcc pat B = some j) :
    ∀ A : List Char, lastOcc pat (A ++ B) = some (A.length + j) := by
  intro A
  induction A with
  | nil => simpa using h
  | cons a A ih =>
    simp only [List.cons_append, lastOcc, List.append_eq, ih, List.length_cons,
      Option.some.injEq]
    omega

theorem lastOcc_some_le {pat : List Char} : ∀ {cs : List Char} {j : Nat},
    lastOcc pat cs = some j → j + pat.length ≤ cs.length := by
  intro cs
  induction cs with
  | nil =>
    intro j h
    simp only [lastOcc] at h
    by_cases hp : pat.isPrefixOf ([] : List Char) = true
    · rw [if_pos hp] at h
      have hj : 0 = j := by simpa using h
      have hlen := (List.isPrefixOf_iff_prefix.mp hp).length_le
      simp only [List.length_nil] at hlen ⊢
      omega
    · rw [if_neg hp] at h
      exact absurd h (by simp)
  | cons c cs ih =>
    intro j h
    simp only [lastOcc] at h
    cases hlo : lastOcc pat cs with
    | some k =>
      simp only [hlo, Option.some.injEq] at h
      have := ih hlo
      subst h
      simp only [List.length_cons]
      omega
    | none =>
      simp only [hlo] at h
      by_cases hp : pat.isPrefixOf (c :: cs) = true
      · rw [if_pos hp] at h
        have hj : 0 = j := by simpa using h
        have hlen := (List.isPrefixOf_iff_prefix.mp hp).length_le
        omega
      · rw [if_neg hp] at h
        exact absurd h (by simp)

/-! ### Whitespace collapse -/

theorem collapseAux_space {c : Char} : ∀ (l : List Char) (b : Bool),
    c ∈ collapseAux b l → isPySpace c = true → c = ' ' := by
  intro l
  induction l with
  | nil => intro b h; simp [collapseAux] at h
  | cons a l ih =>
    intro b h hc
    simp only [collapseAux] at h
    by_cases ha : isPySpace a = true
    · rw [if_pos ha] at h
      cases b with
      | true => exact ih true (by simpa using h) hc
      | false =>
        simp only [Bool.false_eq_true, if_false, List.mem_cons] at h
        rcases h with h | h
        · exact h
        · exact ih true h hc
    · rw [if_neg ha] at h
      rcases List.mem_cons.mp h with h | h
      · subst h; exact absurd hc ha
      · exact ih false h hc

theorem collapseAux_true_head : ∀ (l : List Char) (c : Char),
    (collapseAux true l).head? = some c → isPySpace c = false := by
  intro l
  induction l with
  | nil => intro c h; simp [collapseAux] at h
  | cons a l ih =>
    intro c h
    simp only [collapseAux] at h
    by_cases ha : isPySpace a = true
    · rw [if_pos ha] at h
      exact ih c h
    · rw [if_neg ha] at h
      simp only [List.head?_cons, Option.some.injEq] at h
      subst h
      simpa using ha

theorem collapseAux_chain : ∀ (l : List Char) (b : Bool),
    List.Chain' (fun x y => ¬ (x = ' ' ∧ y = ' ')) (collapseAux b l) := by
  intro l
  induction l with
  | nil => intro b; simp [collapseAux]
  | cons a l ih =>
    intro b
    simp only [collapseAux]
    by_cases ha : isPySpace a = true
    · rw [if_pos ha]
      cases b with
      | true => exact ih true
      | false =>
        simp only [Bool.false_eq_true, if_false]
        refine List.chain'_cons'.mpr ⟨?_, ih true⟩
        intro y hy h
        have := collapseAux_true_head l y hy
        rw [h.2] at this
        simp [isPySpace] at this
    · rw [if_neg ha]
      refine List.chain'_cons'.mpr ⟨?_, ih false⟩
      intro y _ h
      rw [h.1] at ha
      simp [isPySpace] at ha

theorem collapseAux_true_all_space : ∀ (ws rest : List Char),
    (∀ c ∈ ws, isPySpace c = true) → (∀ d ∈ rest.head?, isPySpace d = false) →
    collapseAux true (ws ++ rest) = collapseAux false rest := by
  intro ws
  induction ws with
  | nil =>
    intro rest _ hrest
    cases rest with
    | nil => rfl
    | cons d t =>
      have hd : isPySpace d = false := hrest d (by simp)
      simp [collapseAux, hd]
  | cons w ws ih =>
    intro rest hws hrest
    have hw : isPySpace w = true := hws w (by simp)
    simp only [List.cons_append, collapseAux, if_pos hw]
    exact ih rest (fun c hc => hws c (by simp [hc])) hrest

/-- **C6**: a module-file line containing the comment marker `//` anywhere
is omitted whole from the emitted block body — dropped, not
comment-stripped — wherever it occurs in the file of any emitted module. -/
theorem c6_comment_lines_dropped (pre post : List (List Char)) (l : List Char)
    (h : commentPat <:+: l) :
    bodyOf (pre ++ l :: post) = bodyOf (pre ++ post) := by
  induction pre with
  | nil =>
    have hc : hasSub commentPat l = true := hasSub_iff.mpr h
    simp [bodyOf, hc]
  | cons a pre ih => simp [bodyOf, ih]

theorem c6_w : (commentPat <:+: "let x = 1; // comment\n".toList)
    ∧ bodyOf [['a'], "let x = 1; // comment\n".toList] = bodyOf [['a']] :=
  ⟨by decide, c6_comment_lines_dropped [['a']] [] _ (by decide)⟩

/-- **C7**: each emitted (non-comment) line is written as the line with its
trailing newline stripped and each maximal whitespace run collapsed to one
space: no tab, no newline, no two adjacent spaces appear in the written
text, and a whole whitespace run turns into a single space. -/
theorem c7_whitespace_collapse (l : List Char) :
    emitLineText l = collapseWs (rstripNL l)
    ∧ '\t' ∉ emitLineText l
    ∧ '\n' ∉ emitLineText l
    ∧ ¬ ([' ', ' '] <:+: emitLineText l)
    ∧ (∀ ws rest : List Char, ws ≠ [] → (∀ c ∈ ws, isPySpace c = true) →
        (∀ d ∈ rest.head?, isPySpace d = false) →
        collapseWs (ws ++ rest) = ' ' :: collapseWs rest) := by
  refine ⟨rfl, ?_, ?_, ?_, ?_⟩
  · intro h
    have := collapseAux_space (rstripNL l) false h (by decide)
    simp at this
  · intro h
    have := collapseAux_space (rstripNL l) false h (by decide)
    simp at this
  · intro h
    have hch := collapseAux_chain (rstripNL l) false
    have hsub2 := List.Chain'.infix hch h
    have := List.chain'_pair.mp hsub2
    exact this ⟨rfl, rfl⟩
  · intro ws rest hne hws hrest
    cases ws with
    | nil => exact absurd rfl hne
    | cons w ws =>
      have hw : isPySpace w = true := hws w (by simp)
      have hrec := collapseAux_true_all_space ws rest (fun c hc => hws c (by simp [hc])) hrest
      have hstep : collapseAux false (w :: (ws ++ rest)) = ' ' :: collapseAux true (ws ++ rest) := by
        simp [collapseAux, hw]
      simp only [collapseWs, List.cons_append]
      rw [hstep, hrec]

theorem c7_w : ('\t' ∉ emitLineText "a \t b\n".toList)
    ∧ collapseWs (['\t', ' '] ++ []) = ' ' :: collapseWs [] :=
  ⟨(c7_whitespace_collapse ("a \t b\n".toList)).2.1,
   (c7_whitespace_collapse ("a \t b\n".toList)).2.2.2.2 ['\t', ' '] []
     (by decide) (by decide) (by simp)⟩

end Bundle

namespace Bundle

/-! ### The phase-1 scan regex: greedy match up to the last `" {"` -/

theorem takeWhile_append_all {p : Char → Bool} : ∀ (A B : List Char), (∀ a ∈ A, p a = true) →
    (A ++ B).takeWhile p = A ++ B.takeWhile p := by
  intro A
  induction A with
  | nil => intro B _; rfl
  | cons c cs ih =>
    intro B h
    have hc : p c = true := h c (by simp)
    simp [List.takeWhile_cons, hc, ih B (fun a ha => h a (by simp [ha]))]

theorem brace_cons_lbrace (rest : List Char) (h : lastOcc bracePat rest = none) :
    lastOcc bracePat ('{' :: rest) = none := by
  simp only [lastOcc, h]
  rw [if_neg]
  intro hc
  rw [bracePat_eq] at hc
  simp [List.isPrefixOf] at hc

theorem brace_self (rest : List Char) (h : lastOcc bracePat rest = none) :
    lastOcc bracePat (bracePat ++ rest) = some 0 := by
  have hpf2 : bracePat.isPrefixOf ('{' :: rest) = false := by
    rw [bracePat_eq]
    simp [List.isPrefixOf]
  have hpf : bracePat.isPrefixOf (' ' :: '{' :: rest) = true := by
    rw [bracePat_eq]
    simp [List.isPrefixOf]
  show lastOcc bracePat (' ' :: '{' :: rest) = some 0
  simp [lastOcc, h, hpf2, hpf]

theorem brace_none_rbrace : ∀ (body : List Char), lastOcc bracePat body = none →
    lastOcc bracePat (body ++ ['}']) = none := by
  intro body
  induction body with
  | nil => intro _; decide
  | cons c bs ih =>
    intro h
    have hbs : lastOcc bracePat bs = none := by
      cases hlo : lastOcc bracePat bs with
      | none => rfl
      | some k => simp [lastOcc, hlo] at h
    have hpf : ¬ (bracePat.isPrefixOf (c :: bs) = true) := by
      intro hpc
      simp [lastOcc, hbs, hpc] at h
    have ihb := ih hbs
    have hc : bracePat.isPrefixOf (c :: (bs ++ ['}'])) = false := by
      cases hcc : bracePat.isPrefixOf (c :: (bs ++ ['}'])) with
      | false => rfl
      | true =>
        exfalso
        apply hpf
        rw [bracePat_eq] at hcc ⊢
        cases bs with
        | nil => simp [List.isPrefixOf] at hcc
        | cons b bs' =>
          simp [List.isPrefixOf] at hcc ⊢
          exact hcc
    simp [lastOcc, List.append_eq, ihb, hc]

theorem bodyOf_no_nl : ∀ ls : List (List Char), '\n' ∉ bodyOf ls := by
  intro ls
  induction ls with
  | nil => simp [bodyOf]
  | cons l ls ih =>
    intro hmem
    simp only [bodyOf] at hmem
    rcases List.mem_append.mp hmem with h | h
    · by_cases hc : hasSub commentPat l = true
      · rw [if_pos hc] at h
        simp at h
      · rw [if_neg hc] at h
        have := collapseAux_space (rstripNL l) false h (by decide)
        simp at this
    · exact ih h

theorem pubModName_take_ne (N rest : List Char) {j : Nat}
    (hj : lastOcc bracePat (beforeNL rest) = some j) :
    (N ++ bracePat ++ rest).take (N.length + 2 + j) ≠ N := by
  intro hEq
  have hle := lastOcc_some_le hj
  have hb2 : bracePat.length = 2 := rfl
  have hR : (beforeNL rest).length ≤ rest.length :=
    List.IsPrefix.length_le ( List.takeWhile_prefix _)
  have hXlen : (N ++ bracePat ++ rest).length = N.length + 2 + rest.length := by
    simp only [List.length_append, hb2]
  have hidx : N.length + 2 + j ≤ (N ++ bracePat ++ rest).length := by omega
  have hlen := congrArg List.length hEq
  rw [List.length_take, Nat.min_eq_left hidx] at hlen
  omega

theorem pubModName_core (N rest : List Char) (hN0 : N ≠ []) (hNnl : '\n' ∉ N) :
    (lastOcc bracePat (beforeNL rest) = none →
      pubModName (pubModPat ++ N ++ bracePat ++ rest) = some N)
    ∧ (∀ j, lastOcc bracePat (beforeNL rest) = some j →
      pubModName (pubModPat ++ N ++ bracePat ++ rest)
        = some ((N ++ bracePat ++ rest).take (N.length + 2 + j))) := by
  obtain ⟨n, N', rfl⟩ : ∃ n N'', N = n :: N'' := by
    cases N with
    | nil => exact absurd rfl hN0
    | cons n N' => exact ⟨n, N', rfl⟩
  have h1 : pubModPat.isPrefixOf (pubModPat ++ (n :: N') ++ bracePat ++ rest) = true :=
    List.isPrefixOf_iff_prefix.mpr ⟨(n :: N') ++ bracePat ++ rest, by simp [List.append_assoc]⟩
  have h2 : (pubModPat ++ (n :: N') ++ bracePat ++ rest).drop 8
      = (n :: N') ++ bracePat ++ rest := by
    rw [show pubModPat ++ (n :: N') ++ bracePat ++ rest
        = pubModPat ++ ((n :: N') ++ bracePat ++ rest) by simp [List.append_assoc]]
    rw [show (8 : Nat) = pubModPat.length from rfl, List.drop_left]
  have hall : ∀ a ∈ (n :: N') ++ bracePat, (!(a == '\n')) = true := by
    intro a ha
    rcases List.mem_append.mp ha with h | h
    · have hne : a ≠ '\n' := fun e => hNnl (e ▸ h)
      simp [hne]
    · rw [bracePat_eq] at h
      simp only [List.mem_cons, List.mem_singleton] at h
      rcases h with rfl | rfl | h
      · decide
      · decide
      · simp at h
  have h3 : beforeNL ((n :: N') ++ bracePat ++ rest)
      = (n :: N') ++ bracePat ++ beforeNL rest := by
    show ((n :: N') ++ bracePat ++ rest).takeWhile (fun c => !(c == '\n'))
      = (n :: N') ++ bracePat ++ rest.takeWhile (fun c => !(c == '\n'))
    rw [show (n :: N') ++ bracePat ++ rest = ((n :: N') ++ bracePat) ++ rest from rfl]
    rw [takeWhile_append_all _ _ hall]
  have h4 : ((n :: N') ++ bracePat ++ beforeNL rest).drop 1
      = (N' ++ bracePat) ++ beforeNL rest := by
    simp [List.cons_append]
  constructor
  · intro hnone
    have hA : lastOcc bracePat ((N' ++ bracePat) ++ beforeNL rest)
        = some (N'.length + 0) := by
      rw [List.append_assoc]
      exact lastOcc_append_right (brace_self _ hnone) N'
    simp only [pubModName, if_pos h1, h2, h3, h4, hA]
    rw [show N'.length + 0 + 1 = (n :: N').length by simp]
    rw [show (n :: N') ++ bracePat ++ rest = (n :: N') ++ (bracePat ++ rest)
        by simp [List.append_assoc]]
    rw [List.take_left]
  · intro j hj
    have hB : lastOcc bracePat ((N' ++ bracePat) ++ beforeNL rest)
        = some (N'.length + (2 + j)) := by
      rw [List.append_assoc]
      have hin : lastOcc bracePat (bracePat ++ beforeNL rest) = some (2 + j) := by
        have := lastOcc_append_right hj bracePat
        rw [show bracePat.length = 2 from rfl] at this
        exact this
      exact lastOcc_append_right hin N'
    simp only [pubModName, if_pos h1, h2, h3, h4, hB]
    rw [show N'.length + (2 + j) + 1 = (n :: N').length + 2 + j by
      simp only [List.length_cons]; omega]

/-- **C5**: the phase-1 scan is greedy up to the last `" {"` of the line:
for a line `pub mod N {rest` whose remainder holds no further `" {"` the
recorded identity is exactly `N`; if the remainder holds one, the recorded
identity is the whole slice up to the last `" {"`, which is not `N`.  Since
phase 3 writes the whole compacted body on the header line, a later run
recognizes an emitted block `pub mod N {body}` as embedding `N` exactly
when the compacted body holds no `" {"`. -/
theorem c5_greedy_scan_roundtrip (N rest : List Char) (lines : List (List Char))
    (hN0 : N ≠ []) (hNnl : '\n' ∉ N) :
    (¬ (bracePat <:+: beforeNL rest) →
        pubModName (pubModPat ++ N ++ bracePat ++ rest) = some N)
    ∧ ((bracePat <:+: beforeNL rest) →
        ∃ j, lastOcc bracePat (beforeNL rest) = some j
          ∧ pubModName (pubModPat ++ N ++ bracePat ++ rest)
              = some ((N ++ bracePat ++ rest).take (N.length + 2 + j))
          ∧ (N ++ bracePat ++ rest).take (N.length + 2 + j) ≠ N)
    ∧ (pubModName (pubModPat ++ N ++ bracePat ++ (bodyOf lines ++ ['}', '\n'])) = some N
        ↔ ¬ (bracePat <:+: bodyOf lines)) := by
  obtain ⟨hcoreA, hcoreB⟩ := pubModName_core N rest hN0 hNnl
  refine ⟨?_, ?_, ?_⟩
  · intro hno
    exact hcoreA (lastOcc_none_iff.mpr hno)
  · intro hyes
    obtain ⟨j, hj⟩ := Option.isSome_iff_exists.mp (lastOcc_isSome_of_sub hyes)
    exact ⟨j, hj, hcoreB j hj, pubModName_take_ne N rest hj⟩
  · have hbnl : beforeNL (bodyOf lines ++ ['}', '\n']) = bodyOf lines ++ ['}'] := by
      show (bodyOf lines ++ ['}', '\n']).takeWhile (fun c => !(c == '\n'))
          = bodyOf lines ++ ['}']
      have hall : ∀ a ∈ bodyOf lines, (!(a == '\n')) = true := by
        intro a ha
        have hne : a ≠ '\n' := fun e => bodyOf_no_nl lines (e ▸ ha)
        simp [hne]
      rw [show bodyOf lines ++ ['}', '\n'] = bodyOf lines ++ ('}' :: ['\n']) from rfl]
      rw [takeWhile_append_all _ _ hall]
      rfl
    obtain ⟨hA2, hB2⟩ := pubModName_core N (bodyOf lines ++ ['}', '\n']) hN0 hNnl
    constructor
    · intro hsome hyes
      have hsub2 : bracePat <:+: bodyOf lines ++ ['}'] := by
        obtain ⟨s, t, hst⟩ := hyes
        exact ⟨s, t ++ ['}'], by rw [← hst]; simp [List.append_assoc]⟩
      obtain ⟨j, hj⟩ := Option.isSome_iff_exists.mp (lastOcc_isSome_of_sub hsub2)
      have hj' : lastOcc bracePat (beforeNL (bodyOf lines ++ ['}', '\n'])) = some j := by
        rw [hbnl]
        exact hj
      have heq := hB2 j hj'
      rw [hsome] at heq
      exact pubModName_take_ne N (bodyOf lines ++ ['}', '\n']) hj' (Option.some.inj heq.symm)
    · intro hno
      have hnone2 : lastOcc bracePat (beforeNL (bodyOf lines ++ ['}', '\n'])) = none := by
        rw [hbnl]
        exact brace_none_rbrace _ (lastOcc_none_iff.mpr hno)
      exact hA2 hnone2

theorem c5_w : (['m'] ≠ ([] : List Char))
    ∧ (pubModName (pubModPat ++ ['m'] ++ bracePat ++ (bodyOf [] ++ ['}', '\n'])) = some ['m']
        ↔ ¬ (bracePat <:+: bodyOf [])) :=
  ⟨by decide, (c5_greedy_scan_roundtrip ['m'] "x\n".toList [] (by decide) (by decide)).2.2⟩

/-! ### Emitted block shape -/

theorem splitLines_append_nl : ∀ (A B : List Char), '\n' ∉ A →
    splitLines (A ++ '\n' :: B) = (A ++ ['\n']) :: splitLines B := by
  intro A
  induction A with
  | nil => intro B _; simp [splitLines]
  | cons c A ih =>
    intro B h
    have hc : ¬ (c = '\n') := fun e => h (by simp [e])
    have hA : '\n' ∉ A := fun hm => h (by simp [hm])
    simp [splitLines, hc, ih B hA]

/-- **C8 amended**: an emitted block consists of exactly two output lines —
the `#[rustfmt::skip]` attribute line, and one single line holding the
`pub mod N {` header, all surviving transformed module lines concatenated
with no separator, and the closing brace. -/
theorem c8_amended_block_is_two_lines (p : Path) (txt : List Char) (h : '\n' ∉ stemOf p) :
    splitLines (blockText p txt)
      = ["#[rustfmt::skip]\n".toList,
          "pub mod ".toList ++ stemOf p ++ bracePat ++ bodyOf (splitLines txt) ++ ['}', '\n']] := by
  have hB : '\n' ∉ "pub mod ".toList ++ stemOf p ++ bracePat ++ bodyOf (splitLines txt) ++ ['}'] := by
    intro hm
    simp only [List.mem_append, List.mem_singleton] at hm
    rcases hm with ((((hm | hm) | hm) | hm) | hm)
    · exact absurd hm (by decide)
    · exact h hm
    · rw [bracePat_eq] at hm
      simp at hm
    · exact bodyOf_no_nl _ hm
    · simp at hm
  have hbt : blockText p txt
      = "#[rustfmt::skip]".toList
        ++ '\n' :: (("pub mod ".toList ++ stemOf p ++ bracePat
            ++ bodyOf (splitLines txt) ++ ['}']) ++ '\n' :: []) := by
    show "#[rustfmt::skip]\npub mod ".toList ++ stemOf p ++ bracePat
        ++ bodyOf (splitLines txt) ++ "\x7d\n".toList = _
    rw [show "#[rustfmt::skip]\npub mod ".toList
        = "#[rustfmt::skip]".toList ++ '\n' :: "pub mod ".toList by decide]
    rw [show ("\x7d\n".toList : List Char) = '}' :: '\n' :: [] by decide]
    simp [List.append_assoc]
  rw [hbt]
  rw [splitLines_append_nl _ _ (by decide)]
  rw [splitLines_append_nl _ _ hB]
  simp only [splitLines]
  rw [show "#[rustfmt::skip]".toList ++ ['\n'] = "#[rustfmt::skip]\n".toList by decide]
  simp [List.append_assoc]

theorem c8_w : ('\n' ∉ stemOf "src/x.rs".toList)
    ∧ splitLines (blockText "src/x.rs".toList "fn f;\n".toList)
      = ["#[rustfmt::skip]\n".toList,
          "pub mod ".toList ++ stemOf "src/x.rs".toList ++ bracePat
            ++ bodyOf (splitLines "fn f;\n".toList) ++ ['}', '\n']] :=
  ⟨by decide, c8_amended_block_is_two_lines _ _ (by decide)⟩

theorem c8_cex_no_separate_body_lines :
    splitLines (blockText "src/m.rs".toList "fn a;\nfn b;\n".toList)
      = ["#[rustfmt::skip]\n".toList, "pub mod m \x7bfn a;fn b;\x7d\n".toList]
    ∧ "fn a;\n".toList ∉ splitLines (blockText "src/m.rs".toList "fn a;\nfn b;\n".toList)
    ∧ "\x7d\n".toList ∉ splitLines (blockText "src/m.rs".toList "fn a;\nfn b;\n".toList) :=
  ⟨by decide, by decide, by decide⟩

/-! ### Validation, emit-phase skipping, and the unconditional blank line -/

theorem firstMissing_props (fs : FS) : ∀ (l : List Path) (p : Path),
    firstMissing fs l = some p → isFile fs p = false ∧ p ∈ l := by
  intro l
  induction l with
  | nil => intro p h; simp [firstMissing] at h
  | cons q l ih =>
    intro p h
    simp only [firstMissing] at h
    by_cases hq : isFile fs q = true
    · rw [if_pos hq] at h
      obtain ⟨h1, h2⟩ := ih p h
      exact ⟨h1, by simp [h2]⟩
    · rw [if_neg hq] at h
      obtain rfl := Option.some.inj h
      exact ⟨by simpa using hq, by simp⟩

theorem firstMissing_isSome (fs : FS) : ∀ (l : List Path),
    (∃ p ∈ l, isFile fs p = false) → ∃ q, firstMissing fs l = some q := by
  intro l
  induction l with
  | nil =>
    rintro ⟨p, hp, _⟩
    simp at hp
  | cons q l ih =>
    rintro ⟨p, hp, hpf⟩
    simp only [firstMissing]
    by_cases hq : isFile fs q = true
    · rw [if_pos hq]
      apply ih
      rcases List.mem_cons.mp hp with rfl | hp'
      · rw [hpf] at hq
        simp at hq
      · exact ⟨p, hp', hpf⟩
    · rw [if_neg hq]
      exact ⟨q, rfl⟩

/-- **C9**: when the entry path or any seed path is not a file, `main`
prints the message naming an offending path and returns as a validation
error — `expand_modules` is never reached and no file is opened for
writing, so the entry file is untouched. -/
theorem c9_validation_aborts (fs : FS) (binArg : List Char) (args : List (List Char)) (fuel : Nat)
    (h : isFile fs (binPathOf binArg) = false ∨ ∃ p ∈ seedPathsOf args, isFile fs p = false) :
    ∃ q, mainRun fs binArg args fuel = .validationError (errMsg q)
      ∧ isFile fs q = false ∧ (q = binPathOf binArg ∨ q ∈ seedPathsOf args) := by
  by_cases hbin : isFile fs (binPathOf binArg) = true
  · have hseed : ∃ p ∈ seedPathsOf args, isFile fs p = false := by
      rcases h with h | h
      · rw [h] at hbin
        simp at hbin
      · exact h
    obtain ⟨q, hq⟩ := firstMissing_isSome fs _ hseed
    obtain ⟨hq1, hq2⟩ := firstMissing_props fs _ q hq
    refine ⟨q, ?_, hq1, Or.inr hq2⟩
    simp [mainRun, hbin, hq]
  · have hbf : isFile fs (binPathOf binArg) = false := by simpa using hbin
    refine ⟨binPathOf binArg, ?_, hbf, Or.inl rfl⟩
    simp [mainRun, hbin]

theorem c9_w : (isFile ([] : FS) (binPathOf "t".toList) = false)
    ∧ ∃ q, mainRun [] "t".toList [] 1 = .validationError (errMsg q)
        ∧ isFile ([] : FS) q = false ∧ (q = binPathOf "t".toList ∨ q ∈ seedPathsOf []) :=
  ⟨by decide, c9_validation_aborts [] "t".toList [] 1 (Or.inl (by decide))⟩

/-- **C10**: a module discovered only during closure traversal is never
pre-validated: with `src/a.rs` referencing the absent `src/b.rs`, the run
aborts with the unhandled traversal file-open failure on `src/b.rs`, not
with the targeted validation message that seeds receive. -/
theorem c10_transitive_missing_io_failure :
    mainRun [("src/bin/t.rs".toList, "".toList), ("src/a.rs".toList, "use crate::b::f;\n".toList)]
        "t".toList ["a".toList] 4
      = .ran (.ioError "src/b.rs".toList)
    ∧ "src/b.rs".toList ∉ seedPathsOf ["a".toList]
    ∧ ∀ m : List Char, MainResult.ran (.ioError "src/b.rs".toList) ≠ .validationError m :=
  ⟨rfl, by decide, fun _ h => MainResult.noConfusion h⟩

theorem emitLoop_skips (fs : FS) (existed : List Path) :
    ∀ (ps : List Path) (app : List Char) (em : List Path),
    emitLoop fs existed ps = .ok (app, em) → ∀ p ∈ em, p ∉ existed := by
  intro ps
  induction ps with
  | nil =>
    intro app em h p hp
    simp only [emitLoop, Except.ok.injEq, Prod.mk.injEq] at h
    rw [← h.2] at hp
    simp at hp
  | cons q ps ih =>
    intro app em h p hp
    simp only [emitLoop] at h
    by_cases hq : q ∈ existed
    · rw [if_pos hq] at h
      exact ih _ _ h p hp
    · rw [if_neg hq] at h
      cases hl : lookupFS fs q with
      | none =>
        rw [hl] at h
        exact absurd h (by simp)
      | some txt =>
        rw [hl] at h
        cases hrec : emitLoop fs existed ps with
        | error e =>
          rw [hrec] at h
          exact absurd h (by simp)
        | ok pr =>
          rcases pr with ⟨app', em'⟩
          rw [hrec] at h
          simp only [Except.ok.injEq, Prod.mk.injEq] at h
          rw [← h.2] at hp
          rcases List.mem_cons.mp hp with rfl | hp'
          · exact hq
          · exact ih app' em' hrec p hp'

/-- **C3**: a module identity recorded by the phase-1 scan of the entry
file is never among the emitted blocks: the emit phase skips every path in
the embedded set, so no duplicate inline block is written for it. -/
theorem c3_embedded_never_reemitted (fs : FS) (binPath : Path) (seeds : List Path) (fuel : Nat)
    (binTxt app : List Char) (em : List Path) (p : Path)
    (hbin : lookupFS fs binPath = some binTxt)
    (hrun : expandModules fs binPath seeds fuel = .ok app em)
    (hp : p ∈ existedOfLines (splitLines binTxt)) :
    p ∉ em := by
  unfold expandModules at hrun
  simp only [hbin] at hrun
  cases htrav : travLoop fs fuel (initSeen seeds) (initQ seeds) [] with
  | none => simp [htrav] at hrun
  | some r =>
    simp only [htrav] at hrun
    cases r with
    | ioError q => simp at hrun
    | ok seen sc =>
      cases hemit : emitLoop fs (existedOfLines (splitLines binTxt)) seen with
      | error e => simp [hemit] at hrun
      | ok pr =>
        rcases pr with ⟨app', em'⟩
        simp only [hemit, ExpandResult.ok.injEq] at hrun
        intro hpem
        have hskip := emitLoop_skips fs _ seen app' em' hemit p (by rw [hrun.2]; exact hpem)
        exact hskip hp

theorem c3_w :
    lookupFS [("src/bin/t.rs".toList, "pub mod a \x7b\x7d\n".toList), ("src/a.rs".toList, [])]
        "src/bin/t.rs".toList = some "pub mod a \x7b\x7d\n".toList
    ∧ "src/a.rs".toList ∈ existedOfLines (splitLines "pub mod a \x7b\x7d\n".toList)
    ∧ "src/a.rs".toList ∉ ([] : List Path) :=
  ⟨rfl, by decide,
   c3_embedded_never_reemitted
     [("src/bin/t.rs".toList, "pub mod a \x7b\x7d\n".toList), ("src/a.rs".toList, [])]
     "src/bin/t.rs".toList ["src/a.rs".toList] 2 _ ['\n'] [] _ rfl rfl (by decide)⟩

theorem emitLoop_all_existed (fs : FS) (existed : List Path) : ∀ ps : List Path,
    (∀ p ∈ ps, p ∈ existed) → emitLoop fs existed ps = .ok ([], []) := by
  intro ps
  induction ps with
  | nil => intro _; rfl
  | cons q ps ih =>
    intro h
    simp only [emitLoop, if_pos (h q (by simp))]
    exact ih (fun p hp => h p (by simp [hp]))

/-- **C4 amended**: when every module of the required closure is already
embedded, nothing is emitted, but the run still appends exactly one newline
character (bundle.py line 91 writes it before the loop, unconditionally);
since writes are append-only, the entry file's prior bytes are unchanged. -/
theorem c4_amended_unconditional_blank_line (fs : FS) (binPath : Path) (seeds : List Path)
    (fuel : Nat) (binTxt : List Char) (seen sc : List Path)
    (hbin : lookupFS fs binPath = some binTxt)
    (htrav : travLoop fs fuel (initSeen seeds) (initQ seeds) [] = some (.ok seen sc))
    (hsub : ∀ p ∈ seen, p ∈ existedOfLines (splitLines binTxt)) :
    expandModules fs binPath seeds fuel = .ok ['\n'] [] := by
  unfold expandModules
  simp only [hbin, htrav, emitLoop_all_existed fs _ seen hsub]

theorem c4_w :
    (travLoop [("src/bin/t.rs".toList, "pub mod b \x7b\x7d\n".toList), ("src/b.rs".toList, [])] 2
        (initSeen ["src/b.rs".toList]) (initQ ["src/b.rs".toList]) []
      = some (.ok ["src/b.rs".toList] ["src/b.rs".toList]))
    ∧ expandModules [("src/bin/t.rs".toList, "pub mod b \x7b\x7d\n".toList), ("src/b.rs".toList, [])]
        "src/bin/t.rs".toList ["src/b.rs".toList] 2 = .ok ['\n'] [] :=
  ⟨rfl,
   c4_amended_unconditional_blank_line
     [("src/bin/t.rs".toList, "pub mod b \x7b\x7d\n".toList), ("src/b.rs".toList, [])]
     "src/bin/t.rs".toList ["src/b.rs".toList] 2 _ _ _ rfl rfl (by decide)⟩

theorem c4_cex_newline_appended_when_nothing_required :
    expandModules [("src/bin/t.rs".toList, "pub mod a \x7b\x7d\n".toList), ("src/a.rs".toList, [])]
        "src/bin/t.rs".toList ["src/a.rs".toList] 2 = .ok ['\n'] []
    ∧ (['\n'] : List Char) ≠ [] :=
  ⟨rfl, by decide⟩

/-! ### Worklist traversal: reference processing -/

theorem stepRefs_seen_mono : ∀ (ms seen qR : List Path) (x : Path),
    x ∈ seen → x ∈ (stepRefs (seen, qR) ms).1 := by
  intro ms
  induction ms with
  | nil => intro seen qR x hx; exact hx
  | cons m ms ih =>
    intro seen qR x hx
    simp only [stepRefs]
    by_cases hm : m ∈ seen
    · rw [if_pos hm]
      exact ih seen qR x hx
    · rw [if_neg hm]
      exact ih _ _ x (by simp [hx])

theorem stepRefs_seen_src : ∀ (ms seen qR : List Path) (x : Path),
    x ∈ (stepRefs (seen, qR) ms).1 → x ∈ seen ∨ x ∈ ms := by
  intro ms
  induction ms with
  | nil => intro seen qR x hx; exact Or.inl hx
  | cons m ms ih =>
    intro seen qR x hx
    simp only [stepRefs] at hx
    by_cases hm : m ∈ seen
    · rw [if_pos hm] at hx
      rcases ih seen qR x hx with h | h
      · exact Or.inl h
      · exact Or.inr (by simp [h])
    · rw [if_neg hm] at hx
      rcases ih _ _ x hx with h | h
      · rcases List.mem_append.mp h with h' | h'
        · exact Or.inl h'
        · simp only [List.mem_singleton] at h'
          exact Or.inr (by simp [h'])
      · exact Or.inr (by simp [h])

theorem stepRefs_mem_of_ref : ∀ (ms seen qR : List Path) (x : Path),
    x ∈ ms → x ∈ (stepRefs (seen, qR) ms).1 := by
  intro ms
  induction ms with
  | nil => intro seen qR x hx; simp at hx
  | cons m ms ih =>
    intro seen qR x hx
    simp only [stepRefs]
    rcases List.mem_cons.mp hx with rfl | hx'
    · by_cases hm : x ∈ seen
      · rw [if_pos hm]
        exact stepRefs_seen_mono ms seen qR x hm
      · rw [if_neg hm]
        exact stepRefs_seen_mono ms _ _ x (by simp)
    · by_cases hm : m ∈ seen
      · rw [if_pos hm]
        exact ih seen qR x hx'
      · rw [if_neg hm]
        exact ih _ _ x hx'

theorem stepRefs_q_strong : ∀ (ms seen qR : List Path) (x : Path),
    x ∈ (stepRefs (seen, qR) ms).2 → x ∈ qR ∨ x ∉ seen := by
  intro ms
  induction ms with
  | nil => intro seen qR x hx; exact Or.inl hx
  | cons m ms ih =>
    intro seen qR x hx
    simp only [stepRefs] at hx
    by_cases hm : m ∈ seen
    · rw [if_pos hm] at hx
      exact ih seen qR x hx
    · rw [if_neg hm] at hx
      rcases ih _ _ x hx with h | h
      · rcases List.mem_cons.mp h with rfl | h'
        · exact Or.inr hm
        · exact Or.inl h'
      · have hxs : x ∉ seen := fun hx' => h (by simp [hx'])
        exact Or.inr hxs

theorem stepRefs_settled : ∀ (ms seen qR : List Path) (x : Path),
    x ∈ (stepRefs (seen, qR) ms).1 → x ∉ (stepRefs (seen, qR) ms).2 →
    x ∈ seen ∧ x ∉ qR := by
  intro ms
  induction ms with
  | nil => intro seen qR x h1 h2; exact ⟨h1, h2⟩
  | cons m ms ih =>
    intro seen qR x h1 h2
    simp only [stepRefs] at h1 h2
    by_cases hm : m ∈ seen
    · rw [if_pos hm] at h1 h2
      exact ih seen qR x h1 h2
    · rw [if_neg hm] at h1 h2
      obtain ⟨hs, hq⟩ := ih _ _ x h1 h2
      have hxm : x ≠ m := fun e => hq (by simp [e])
      refine ⟨?_, fun hx => hq (by simp [hx])⟩
      rcases List.mem_append.mp hs with h | h
      · exact h
      · simp only [List.mem_singleton] at h
        exact absurd h hxm

theorem stepRefs_q_sub_seen : ∀ (ms seen qR : List Path),
    (∀ x ∈ qR, x ∈ seen) →
    ∀ x ∈ (stepRefs (seen, qR) ms).2, x ∈ (stepRefs (seen, qR) ms).1 := by
  intro ms
  induction ms with
  | nil => intro seen qR h x hx; exact h x hx
  | cons m ms ih =>
    intro seen qR h x hx
    simp only [stepRefs] at hx ⊢
    by_cases hm : m ∈ seen
    · rw [if_pos hm] at hx ⊢
      exact ih seen qR h x hx
    · rw [if_neg hm] at hx ⊢
      refine ih _ _ ?_ x hx
      intro y hy
      rcases List.mem_cons.mp hy with rfl | hy'
      · simp
      · simp [h y hy']

theorem stepRefs_seen_nodup : ∀ (ms seen qR : List Path),
    seen.Nodup → (stepRefs (seen, qR) ms).1.Nodup := by
  intro ms
  induction ms with
  | nil => intro seen qR h; exact h
  | cons m ms ih =>
    intro seen qR h
    simp only [stepRefs]
    by_cases hm : m ∈ seen
    · rw [if_pos hm]
      exact ih seen qR h
    · rw [if_neg hm]
      exact ih _ _ (by simp [List.nodup_append, h, hm])

theorem stepRefs_q_nodup : ∀ (ms seen qR : List Path),
    qR.Nodup → (∀ x ∈ qR, x ∈ seen) → (stepRefs (seen, qR) ms).2.Nodup := by
  intro ms
  induction ms with
  | nil => intro seen qR h _; exact h
  | cons m ms ih =>
    intro seen qR h hsub
    simp only [stepRefs]
    by_cases hm : m ∈ seen
    · rw [if_pos hm]
      exact ih seen qR h hsub
    · rw [if_neg hm]
      refine ih _ _ ?_ ?_
      · rw [List.nodup_cons]
        exact ⟨fun hmq => hm (hsub m hmq), h⟩
      · intro y hy
        rcases List.mem_cons.mp hy with rfl | hy'
        · simp
        · simp [hsub y hy']

/-! ### The closure traversal computes exactly the reachable set -/

theorem travLoop_inv (fs : FS) (seeds : List Path) :
    ∀ (fuel : Nat) (seen qR scans seenF scF : List Path),
    travLoop fs fuel seen qR scans = some (.ok seenF scF) →
    TravInv fs seeds seen qR → TravInv fs seeds seenF [] := by
  intro fuel
  induction fuel with
  | zero =>
    intro seen qR scans seenF scF h hinv
    cases qR with
    | nil =>
      simp only [travLoop, Option.some.injEq, TravResult.ok.injEq] at h
      rw [← h.1]
      exact hinv
    | cons p qR' => simp [travLoop] at h
  | succ fuel ih =>
    intro seen qR scans seenF scF h hinv
    cases qR with
    | nil =>
      simp only [travLoop, Option.some.injEq, TravResult.ok.injEq] at h
      rw [← h.1]
      exact hinv
    | cons p qR' =>
      simp only [travLoop] at h
      cases hl : lookupFS fs p with
      | none => simp [hl] at h
      | some txt =>
        simp only [hl] at h
        refine ih _ _ _ _ _ h ?_
        obtain ⟨ha, hb, hc, hd⟩ := hinv
        have hrefs : refsOf fs p = refsOfLines (splitLines txt) := by
          simp [refsOf, hl]
        refine ⟨?_, ?_, ?_, ?_⟩
        · intro x hx
          exact stepRefs_seen_mono _ _ _ x (ha x hx)
        · exact stepRefs_q_sub_seen _ _ _ (fun x hx => hb x (by simp [hx]))
        · intro x hx
          rcases stepRefs_seen_src _ _ _ x hx with h1 | h1
          · exact hc x h1
          · exact ReachableFrom.step (hc p (hb p (by simp))) (by rw [hrefs]; exact h1)
        · intro x hx1 hx2
          obtain ⟨hxs, hxq⟩ := stepRefs_settled _ _ _ x hx1 hx2
          by_cases hxp : x = p
          · subst hxp
            intro m hm
            rw [hrefs] at hm
            exact stepRefs_mem_of_ref _ _ _ m hm
          · intro m hm
            have hx3 : x ∉ p :: qR' := by
              simp only [List.mem_cons]
              rintro (rfl | hq)
              · exact hxp rfl
              · exact hxq hq
            exact stepRefs_seen_mono _ _ _ m (hd x hxs hx3 m hm)

theorem mem_foldl_insert : ∀ (seeds acc : List Path) (x : Path),
    x ∈ seeds.foldl (fun s p => if p ∈ s then s else s ++ [p]) acc ↔ x ∈ acc ∨ x ∈ seeds := by
  intro seeds
  induction seeds with
  | nil => intro acc x; simp
  | cons p seeds ih =>
    intro acc x
    simp only [List.foldl_cons]
    rw [ih]
    by_cases hp : p ∈ acc
    · rw [if_pos hp]
      have hxp : x = p → x ∈ acc := fun e => e ▸ hp
      simp only [List.mem_cons]
      tauto
    · rw [if_neg hp]
      simp only [List.mem_append, List.mem_singleton, List.mem_cons]
      tauto

theorem mem_initSeen (seeds : List Path) (x : Path) :
    x ∈ initSeen seeds ↔ x ∈ seeds := by
  unfold initSeen
  rw [mem_foldl_insert]
  simp

theorem travLoop_init_inv (fs : FS) (seeds : List Path) :
    TravInv fs seeds (initSeen seeds) (initQ seeds) := by
  refine ⟨?_, ?_, ?_, ?_⟩
  · intro p hp
    exact (mem_initSeen seeds p).mpr hp
  · intro p hp
    exact (mem_initSeen seeds p).mpr (by simpa [initQ] using hp)
  · intro p hp
    exact ReachableFrom.seed ((mem_initSeen seeds p).mp hp)
  · intro p hp hq
    exact absurd (by simpa [initQ] using (mem_initSeen seeds p).mp hp) hq

/-- **C1**: for every successful traversal, the final seen-set holds
exactly the module paths reachable from the seeds over the reference
relation (seeds included); since the reachable set is order-free, the
result is independent of the worklist processing order. -/
theorem c1_required_closure (fs : FS) (seeds : List Path) (fuel : Nat) (seen sc : List Path)
    (h : travLoop fs fuel (initSeen seeds) (initQ seeds) [] = some (.ok seen sc)) :
    ∀ p, p ∈ seen ↔ ReachableFrom fs seeds p := by
  obtain ⟨ha, _, hc, hd⟩ := travLoop_inv fs seeds fuel _ _ _ _ _ h (travLoop_init_inv fs seeds)
  intro p
  constructor
  · exact hc p
  · intro hr
    induction hr with
    | seed hp => exact ha _ hp
    | step hr hm ih => exact hd _ ih (by simp) _ hm

theorem c1_w :
    (travLoop [("src/a.rs".toList, "use crate::b::f;\n".toList),
               ("src/b.rs".toList, "use crate::c::f;\n".toList),
               ("src/c.rs".toList, "fn g;\n".toList)] 6
        (initSeen ["src/a.rs".toList]) (initQ ["src/a.rs".toList]) []
      = some (.ok ["src/a.rs".toList, "src/b.rs".toList, "src/c.rs".toList]
                  ["src/a.rs".toList, "src/b.rs".toList, "src/c.rs".toList]))
    ∧ ("src/c.rs".toList ∈ ["src/a.rs".toList, "src/b.rs".toList, "src/c.rs".toList]
        ↔ ReachableFrom [("src/a.rs".toList, "use crate::b::f;\n".toList),
                         ("src/b.rs".toList, "use crate::c::f;\n".toList),
                         ("src/c.rs".toList, "fn g;\n".toList)] ["src/a.rs".toList]
            "src/c.rs".toList) :=
  ⟨rfl,
   c1_required_closure
     [("src/a.rs".toList, "use crate::b::f;\n".toList),
      ("src/b.rs".toList, "use crate::c::f;\n".toList),
      ("src/c.rs".toList, "fn g;\n".toList)]
     ["src/a.rs".toList] 6 _ _ rfl "src/c.rs".toList⟩

/-! ### Termination of the traversal and single-scan bookkeeping -/

theorem lookupFS_mem : ∀ (fs : FS) (p : Path) (txt : List Char),
    lookupFS fs p = some txt → (p, txt) ∈ fs := by
  intro fs
  induction fs with
  | nil => intro p txt h; simp [lookupFS] at h
  | cons e fs ih =>
    intro p txt h
    rcases e with ⟨q, t⟩
    simp only [lookupFS] at h
    by_cases hq : q = p
    · rw [if_pos hq] at h
      obtain rfl := Option.some.inj h
      subst hq
      simp
    · rw [if_neg hq] at h
      simp [ih p txt h]

theorem refs_mem_allRefs (fs : FS) (p : Path) (txt : List Char)
    (hl : lookupFS fs p = some txt) :
    ∀ m ∈ refsOfLines (splitLines txt), m ∈ allRefs fs := by
  intro m hm
  unfold allRefs
  rw [List.mem_flatten]
  exact ⟨refsOfLines (splitLines txt),
    List.mem_map.mpr ⟨(p, txt), lookupFS_mem fs p txt hl, rfl⟩, hm⟩

theorem filter_notMem_snoc_len : ∀ (l : List Path) (m : Path) (seen : List Path),
    l.Nodup → m ∈ l → m ∉ seen →
    (l.filter (fun u => decide (u ∉ seen ++ [m]))).length + 1
      = (l.filter (fun u => decide (u ∉ seen))).length := by
  intro l
  induction l with
  | nil => intro m seen _ hm _; simp at hm
  | cons c l ih =>
    intro m seen hnd hm hms
    have hcl : c ∉ l := (List.nodup_cons.mp hnd).1
    have hl : l.Nodup := (List.nodup_cons.mp hnd).2
    by_cases hcm : c = m
    · subst hcm
      have h1 : (decide (c ∉ seen ++ [c])) = false := by simp
      have h2 : (decide (c ∉ seen)) = true := by simp [hms]
      have htail : l.filter (fun u => decide (u ∉ seen ++ [c]))
          = l.filter (fun u => decide (u ∉ seen)) := by
        apply List.filter_congr
        intro a ha
        have hac : ¬ (a = c) := fun e => hcl (e ▸ ha)
        exact decide_eq_decide.mpr (by simp [List.mem_append, hac])
      rw [List.filter_cons, List.filter_cons, h1, h2, if_neg (by simp), if_pos rfl, htail]
      simp only [List.length_cons]
    · have hm' : m ∈ l := by
        rcases List.mem_cons.mp hm with h | h
        · exact absurd h.symm hcm
        · exact h
      have hcond : (decide (c ∉ seen ++ [m])) = (decide (c ∉ seen)) :=
        decide_eq_decide.mpr (by simp [List.mem_append, hcm])
      have hrec := ih m seen hl hm' hms
      simp only [List.filter_cons, hcond]
      cases hcd : (decide (c ∉ seen)) with
      | true =>
        rw [if_pos rfl, if_pos rfl]
        simp only [List.length_cons]
        omega
      | false =>
        rw [if_neg (by simp), if_neg (by simp)]
        exact hrec

theorem stepRefs_measure (fs : FS) : ∀ (ms seen qR : List Path),
    (∀ m ∈ ms, m ∈ allRefs fs) →
    (stepRefs (seen, qR) ms).2.length + missNum fs (stepRefs (seen, qR) ms).1
      ≤ qR.length + missNum fs seen := by
  intro ms
  induction ms with
  | nil => intro seen qR _; exact le_refl _
  | cons m ms ih =>
    intro seen qR hms
    simp only [stepRefs]
    by_cases hm : m ∈ seen
    · rw [if_pos hm]
      exact ih seen qR (fun x hx => hms x (by simp [hx]))
    · rw [if_neg hm]
      have hstep := ih (seen ++ [m]) (m :: qR) (fun x hx => hms x (by simp [hx]))
      have hdrop : missNum fs (seen ++ [m]) + 1 = missNum fs seen := by
        unfold missNum
        exact filter_notMem_snoc_len _ m seen (List.nodup_dedup _)
          (List.mem_dedup.mpr (hms m (by simp))) hm
      simp only [List.length_cons] at hstep
      omega

theorem travLoop_total (fs : FS) : ∀ (fuel : Nat) (seen qR scans : List Path),
    qR.length + missNum fs seen ≤ fuel → (travLoop fs fuel seen qR scans).isSome = true := by
  intro fuel
  induction fuel with
  | zero =>
    intro seen qR scans hle
    cases qR with
    | nil => simp [travLoop]
    | cons p qR' => simp [List.length_cons] at hle
  | succ fuel ih =>
    intro seen qR scans hle
    cases qR with
    | nil => simp [travLoop]
    | cons p qR' =>
      simp only [travLoop]
      cases hl : lookupFS fs p with
      | none => simp
      | some txt =>
        apply ih
        have hms := stepRefs_measure fs (refsOfLines (splitLines txt)) seen qR'
          (refs_mem_allRefs fs p txt hl)
        simp only [List.length_cons] at hle
        omega

theorem foldl_insert_nodup : ∀ (seeds acc : List Path), acc.Nodup →
    (seeds.foldl (fun s p => if p ∈ s then s else s ++ [p]) acc).Nodup := by
  intro seeds
  induction seeds with
  | nil => intro acc h; exact h
  | cons p seeds ih =>
    intro acc h
    simp only [List.foldl_cons]
    by_cases hp : p ∈ acc
    · rw [if_pos hp]
      exact ih acc h
    · rw [if_neg hp]
      exact ih _ (by simp [List.nodup_append, h, hp])

theorem travLoop_seen_nodup (fs : FS) : ∀ (fuel : Nat) (seen qR scans seenF scF : List Path),
    travLoop fs fuel seen qR scans = some (.ok seenF scF) → seen.Nodup → seenF.Nodup := by
  intro fuel
  induction fuel with
  | zero =>
    intro seen qR scans seenF scF h hnd
    cases qR with
    | nil =>
      simp only [travLoop, Option.some.injEq, TravResult.ok.injEq] at h
      rw [← h.1]
      exact hnd
    | cons p qR' => simp [travLoop] at h
  | succ fuel ih =>
    intro seen qR scans seenF scF h hnd
    cases qR with
    | nil =>
      simp only [travLoop, Option.some.injEq, TravResult.ok.injEq] at h
      rw [← h.1]
      exact hnd
    | cons p qR' =>
      simp only [travLoop] at h
      cases hl : lookupFS fs p with
      | none => simp [hl] at h
      | some txt =>
        simp only [hl] at h
        exact ih _ _ _ _ _ h (stepRefs_seen_nodup _ _ _ hnd)

theorem travLoop_scan_nodup (fs : FS) : ∀ (fuel : Nat) (seen qR scans seenF scF : List Path),
    travLoop fs fuel seen qR scans = some (.ok seenF scF) → ScanInv seen qR scans → scF.Nodup := by
  intro fuel
  induction fuel with
  | zero =>
    intro seen qR scans seenF scF h hinv
    cases qR with
    | nil =>
      simp only [travLoop, Option.some.injEq, TravResult.ok.injEq] at h
      rw [← h.2]
      exact hinv.1
    | cons p qR' => simp [travLoop] at h
  | succ fuel ih =>
    intro seen qR scans seenF scF h hinv
    cases qR with
    | nil =>
      simp only [travLoop, Option.some.injEq, TravResult.ok.injEq] at h
      rw [← h.2]
      exact hinv.1
    | cons p qR' =>
      simp only [travLoop] at h
      cases hl : lookupFS fs p with
      | none => simp [hl] at h
      | some txt =>
        simp only [hl] at h
        obtain ⟨hsc, hqnd, hscq, hscs, hqs⟩ := hinv
        have hpseen : p ∈ seen := hqs p (by simp)
        have hpsc : p ∉ scans := fun hps => hscq p hps (by simp)
        have hq'nd : qR'.Nodup := (List.nodup_cons.mp hqnd).2
        have hpq' : p ∉ qR' := (List.nodup_cons.mp hqnd).1
        have hq's : ∀ x ∈ qR', x ∈ seen := fun x hx => hqs x (by simp [hx])
        refine ih _ _ _ _ _ h ⟨?_, ?_, ?_, ?_, ?_⟩
        · simp [List.nodup_append, hsc, hpsc]
        · exact stepRefs_q_nodup _ _ _ hq'nd hq's
        · intro x hx hx2
          rcases stepRefs_q_strong _ _ _ x hx2 with hq | hns
          · rcases List.mem_append.mp hx with hxs | hxp
            · exact hscq x hxs (by simp [hq])
            · simp only [List.mem_singleton] at hxp
              subst hxp
              exact hpq' hq
          · rcases List.mem_append.mp hx with hxs | hxp
            · exact hns (hscs x hxs)
            · simp only [List.mem_singleton] at hxp
              subst hxp
              exact hns hpseen
        · intro x hx
          rcases List.mem_append.mp hx with hxs | hxp
          · exact stepRefs_seen_mono _ _ _ x (hscs x hxs)
          · simp only [List.mem_singleton] at hxp
            subst hxp
            exact stepRefs_seen_mono _ _ _ x hpseen
        · exact stepRefs_q_sub_seen _ _ _ hq's

/-- **C2 amended**: the closure traversal terminates on every finite
reference graph (cyclic ones included); the seen-set never holds
duplicates, so a path already in it is never re-added; and provided the
seed list itself is duplicate-free, no module file is opened for scanning
twice.  With duplicate seeds, the same file is scanned once per duplicate
(see the counterexample), which is the only deviation from the claim. -/
theorem c2_amended_termination_single_scan (fs : FS) (seeds : List Path) :
    (∃ fuel r, travLoop fs fuel (initSeen seeds) (initQ seeds) [] = some r)
    ∧ (∀ fuel seen sc, travLoop fs fuel (initSeen seeds) (initQ seeds) [] = some (.ok seen sc) →
        seen.Nodup)
    ∧ (seeds.Nodup → ∀ fuel seen sc,
        travLoop fs fuel (initSeen seeds) (initQ seeds) [] = some (.ok seen sc) → sc.Nodup) := by
  refine ⟨?_, ?_, ?_⟩
  · refine ⟨(initQ seeds).length + missNum fs (initSeen seeds), ?_⟩
    have := travLoop_total fs ((initQ seeds).length + missNum fs (initSeen seeds))
      (initSeen seeds) (initQ seeds) [] (le_refl _)
    obtain ⟨r, hr⟩ := Option.isSome_iff_exists.mp this
    exact ⟨r, hr⟩
  · intro fuel seen sc h
    exact travLoop_seen_nodup fs fuel _ _ _ _ _ h (foldl_insert_nodup seeds [] (by simp))
  · intro hseeds fuel seen sc h
    refine travLoop_scan_nodup fs fuel _ _ _ _ _ h ⟨by simp, ?_, ?_, ?_, ?_⟩
    · simpa [initQ] using List.nodup_reverse.mpr hseeds
    · intro x hx
      simp at hx
    · intro x hx
      simp at hx
    · intro x hx
      exact (mem_initSeen seeds x).mpr (by simpa [initQ] using hx)

theorem c2_w : (["src/a.rs".toList] : List Path).Nodup
    ∧ (travLoop [("src/a.rs".toList, "use crate::b::f;\n".toList),
                 ("src/b.rs".toList, "use crate::a::f;\n".toList)] 4
        (initSeen ["src/a.rs".toList]) (initQ ["src/a.rs".toList]) []
      = some (.ok ["src/a.rs".toList, "src/b.rs".toList]
                  ["src/a.rs".toList, "src/b.rs".toList]))
    ∧ (["src/a.rs".toList, "src/b.rs".toList] : List Path).Nodup :=
  ⟨by decide, rfl,
   (c2_amended_termination_single_scan
       [("src/a.rs".toList, "use crate::b::f;\n".toList),
        ("src/b.rs".toList, "use crate::a::f;\n".toList)]
       ["src/a.rs".toList]).2.2 (by decide) 4 _ _ rfl⟩

theorem c2_cex_duplicate_seed_scanned_twice :
    travLoop [("src/a.rs".toList, ([] : List Char))] 2
        (initSeen ["src/a.rs".toList, "src/a.rs".toList])
        (initQ ["src/a.rs".toList, "src/a.rs".toList]) []
      = some (.ok ["src/a.rs".toList] ["src/a.rs".toList, "src/a.rs".toList])
    ∧ ¬ (["src/a.rs".toList, "src/a.rs".toList] : List Path).Nodup :=
  ⟨rfl, by decide⟩

end Bundle
